import Mathlib

/-!
# Verification of `universum/modules/vcs/github_actions_vcs.py`

Shallow embedding of the GitHub Actions VCS integration module and of the
`urllib.parse` collaborator functions it calls (`urlsplit`, `urlunsplit`,
`SplitResult.username`), over `List Char` / `String`.

Modelling notes:
* Strings are `String` / `List Char`; Python `str.split`, slicing, `find`,
  `rpartition`, `partition` are embedded as structural list functions below.
* `urlsplit`/`urlunsplit` follow modern CPython `urllib.parse`: the
  tab/CR/LF strip (`_UNSAFE_URL_BYTES_TO_REMOVE`), the scheme detection
  (`i = url.find(':')`, `i > 0`, first char ASCII alpha, all chars in
  `scheme_chars`, lowercasing), the `'//'` netloc extraction up to the first
  of `/?#`, then fragment split at the first `#`, then query split at the
  first `?`.  The `ValueError` raised for unbalanced IPv6 brackets and the
  `_checknetloc` NFKC check (non-ASCII only) are outside this model; the
  URL-level theorems are read over bracket-free ASCII URLs.
* JSON documents are the `Json` inductive; Python `d[key]` is `Json.get?`
  (both a missing key and indexing a non-dict yield the error case, matching
  the uncaught `KeyError`/`TypeError`).
* `json.loads` and the base-class `self.error` are external collaborators:
  `loads` is a parameter, and `self.error` is modelled from the spec
  ("ConfigurationError ... surfaced immediately at construction") as
  producing `PyErr.configError`.
* Each reporting operation returns the list of HTTP POST requests it emitted
  (in order) together with `Option PyErr`: `some e` when an uncaught
  exception escaped after those requests were already sent.
-/

/-- The characters removed from a URL by CPython `urlsplit` before parsing
(`_UNSAFE_URL_BYTES_TO_REMOVE = ["\t", "\r", "\n"]`). -/
def unsafeChar (c : Char) : Bool :=
  c = '\t' || c = '\r' || c = '\n'

/-- `url.replace("\t", "").replace("\r", "").replace("\n", "")`. -/
def removeUnsafe (cs : List Char) : List Char :=
  cs.filter (fun c => !unsafeChar c)

/-- Python `urllib.parse.scheme_chars`, literally. -/
def schemeChars : List Char :=
  ("abcdefghijklmnopqrstuvwxyzABCDEFGHIJKLMNOPQRSTUVWXYZ0123456789+-.").data

/-- The characters for which `c.isascii() and c.isalpha()` holds. -/
def asciiLetters : List Char :=
  ("abcdefghijklmnopqrstuvwxyzABCDEFGHIJKLMNOPQRSTUVWXYZ").data

/-- ASCII `str.lower` on one character.  Python lowercases the scheme with
`str.lower()`; in `urlsplit` it is only ever applied to `scheme_chars`
(ASCII), where it agrees with this table. -/
def lowerChar (c : Char) : Char :=
  if c = 'A' then 'a' else if c = 'B' then 'b' else if c = 'C' then 'c'
  else if c = 'D' then 'd' else if c = 'E' then 'e' else if c = 'F' then 'f'
  else if c = 'G' then 'g' else if c = 'H' then 'h' else if c = 'I' then 'i'
  else if c = 'J' then 'j' else if c = 'K' then 'k' else if c = 'L' then 'l'
  else if c = 'M' then 'm' else if c = 'N' then 'n' else if c = 'O' then 'o'
  else if c = 'P' then 'p' else if c = 'Q' then 'q' else if c = 'R' then 'r'
  else if c = 'S' then 's' else if c = 'T' then 't' else if c = 'U' then 'u'
  else if c = 'V' then 'v' else if c = 'W' then 'w' else if c = 'X' then 'x'
  else if c = 'Y' then 'y' else if c = 'Z' then 'z' else c

/-- The delimiters ending a netloc in `_splitnetloc` (`'/?#'`). -/
def isNetlocEnd (c : Char) : Bool :=
  c = '/' || c = '?' || c = '#'

/-- The part of `l` strictly before the first occurrence of `c`
(all of `l` when `c` does not occur): Python `l[:l.find(c)]` /
`l.partition(c)[0]`. -/
def takeUntil (c : Char) : List Char → List Char
  | [] => []
  | x :: xs => if x = c then [] else x :: takeUntil c xs

/-- The part of `l` strictly after the first occurrence of `c`
(`[]` when `c` does not occur): Python `l[l.find(c)+1:]`. -/
def dropThrough (c : Char) : List Char → List Char
  | [] => []
  | x :: xs => if x = c then xs else dropThrough c xs

/-- `_splitnetloc`: the part before the first of `/?#`. -/
def netlocTake : List Char → List Char
  | [] => []
  | x :: xs => if isNetlocEnd x then [] else x :: netlocTake xs

/-- `_splitnetloc`: the remainder from the first of `/?#` on (delimiter
kept). -/
def netlocDrop : List Char → List Char
  | [] => []
  | x :: xs => if isNetlocEnd x then x :: xs else netlocDrop xs

/-- The part of `l` before the last occurrence of `c`, `none` when `c` does
not occur: Python `l.rpartition(c)[0]` with `l.rpartition(c)[1]` as the
occurrence test. -/
def beforeLast (c : Char) : List Char → Option (List Char)
  | [] => none
  | x :: xs =>
    match beforeLast c xs with
    | some r => some (x :: r)
    | none => if x = c then some [] else none

/-- Python `str.split(c)`: all fields, empty fields kept. -/
def splitOnChar (c : Char) : List Char → List (List Char)
  | [] => [[]]
  | x :: xs =>
    match splitOnChar c xs with
    | [] => [[]]
    | l :: ls => if x = c then [] :: l :: ls else (x :: l) :: ls

/-- CPython `SplitResult` (named tuple of `urlsplit`). -/
structure SplitRes where
  scheme : List Char
  netloc : List Char
  path : List Char
  query : List Char
  fragment : List Char
deriving DecidableEq, Repr

/-- The scheme test of `urlsplit`: `i > 0`, `url[0].isascii() and
url[0].isalpha()`, and every char of `url[:i]` in `scheme_chars`. -/
def schemeOk : List Char → Bool
  | [] => false
  | c :: rest => decide (c ∈ asciiLetters) && (c :: rest).all (fun d => decide (d ∈ schemeChars))

/-- The scheme-extraction step of `urlsplit`: on success returns the
lowercased scheme and `url[i+1:]`, otherwise no scheme. -/
def splitScheme (cs : List Char) : List Char × List Char :=
  if ':' ∈ cs then
    let pre := takeUntil ':' cs
    if schemeOk pre = true then (pre.map lowerChar, dropThrough ':' cs) else ([], cs)
  else ([], cs)

/-- The netloc-extraction step of `urlsplit`: only when `url[:2] == '//'`. -/
def splitNetloc2 (cs : List Char) : List Char × List Char :=
  if cs.take 2 = ['/', '/'] then (netlocTake (cs.drop 2), netlocDrop (cs.drop 2)) else ([], cs)

/-- The fragment split of `urlsplit`: `url.split('#', 1)` when `'#' in url`. -/
def splitFrag (cs : List Char) : List Char × List Char :=
  if '#' ∈ cs then (takeUntil '#' cs, dropThrough '#' cs) else (cs, [])

/-- The query split of `urlsplit`: `url.split('?', 1)` when `'?' in url`. -/
def splitQuery (cs : List Char) : List Char × List Char :=
  if '?' ∈ cs then (takeUntil '?' cs, dropThrough '?' cs) else (cs, [])

/-- CPython `urllib.parse.urlsplit` (scheme, netloc, path, query, fragment),
with `allow_fragments=True`. -/
def urlsplitL (cs0 : List Char) : SplitRes :=
  let cs := removeUnsafe cs0
  let s := splitScheme cs
  let n := splitNetloc2 s.2
  let f := splitFrag n.2
  let q := splitQuery f.1
  SplitRes.mk s.1 n.1 q.1 q.2 f.2

/-- CPython `urllib.parse.urlunsplit`. -/
def urlunsplitL (r : SplitRes) : List Char :=
  let url1 :=
    if r.netloc ≠ [] ∨ r.path.take 2 = ['/', '/'] then
      '/' :: '/' :: (r.netloc ++ (if r.path ≠ [] ∧ r.path.head? ≠ some '/' then '/' :: r.path else r.path))
    else r.path
  let url2 := if r.scheme ≠ [] then r.scheme ++ ':' :: url1 else url1
  let url3 := if r.query ≠ [] then url2 ++ '?' :: r.query else url2
  if r.fragment ≠ [] then url3 ++ '#' :: r.fragment else url3

/-- Python truthiness of `SplitResult.username`: `username` is `None` when
the netloc has no `'@'` (`netloc.rpartition('@')`), else the userinfo up to
the first `':'` (`userinfo.partition(':')[0]`); `not username` holds when it
is `None` or empty. -/
def usernameFalsy (netloc : List Char) : Bool :=
  match beforeLast '@' netloc with
  | none => true
  | some ui => (takeUntil ':' ui).isEmpty

/-- The clone-URL rewrite of `GithubActionsMainVcs._clone` (lines 64-70):
split the URL; if the scheme is `https` and no username is present, set the
netloc to `token@netloc`; unsplit.  The resulting string is what is passed
to the underlying git clone. -/
def injectL (token url : List Char) : List Char :=
  let r := urlsplitL url
  if r.scheme = ("https").data ∧ usernameFalsy r.netloc = true then
    urlunsplitL (SplitRes.mk r.scheme (token ++ '@' :: r.netloc) r.path r.query r.fragment)
  else
    urlunsplitL r

/-- String-level wrapper of `injectL`. -/
def injectUrl (token url : String) : String :=
  String.mk (injectL token.data url.data)

/-- The path fix `urlunsplit` applies when combining a netloc with a
relative path (`if url and url[:1] != '/': url = '/' + url`). -/
def fixPath (r : SplitRes) : List Char :=
  if (r.netloc ≠ [] ∨ r.path.take 2 = ['/', '/']) ∧ r.path ≠ [] ∧ r.path.head? ≠ some '/' then
    '/' :: r.path
  else r.path

/-- `r` with its path replaced by `fixPath r`: the normal form reached after
one `urlunsplit`/`urlsplit` round trip. -/
def normPathFix (r : SplitRes) : SplitRes :=
  SplitRes.mk r.scheme r.netloc (fixPath r) r.query r.fragment

/-- The query-and-fragment tail appended by `urlunsplit` (proof helper). -/
def tailQF (r : SplitRes) : List Char :=
  (if r.query = [] then [] else '?' :: r.query) ++
  (if r.fragment = [] then [] else '#' :: r.fragment)

/-- The body of `urlunsplitL r` after the optional `scheme:` has been
removed (used only in proofs). -/
def midOf (r : SplitRes) : List Char :=
  (if r.netloc ≠ [] ∨ r.path.take 2 = ['/', '/'] then '/' :: '/' :: (r.netloc ++ fixPath r)
   else fixPath r) ++ tailQF r

/-- No tab/CR/LF among the characters. -/
def cleanL (l : List Char) : Prop :=
  ∀ c ∈ l, unsafeChar c = false

/-- No `/?#` among the characters. -/
def noEnd (l : List Char) : Prop :=
  ∀ c ∈ l, isNetlocEnd c = false

/-- Invariants of the components produced by `urlsplitL` (also preserved by
the netloc rewrite of `_clone`); enough for the round-trip theorem. -/
structure Good (r : SplitRes) : Prop where
  sClean : cleanL r.scheme
  nClean : cleanL r.netloc
  pClean : cleanL r.path
  qClean : cleanL r.query
  fClean : cleanL r.fragment
  sOk : r.scheme = [] ∨ (schemeOk r.scheme = true ∧ r.scheme.map lowerChar = r.scheme)
  nEnd : noEnd r.netloc
  pHash : '#' ∉ r.path
  pQm : '?' ∉ r.path
  qHash : '#' ∉ r.query
  pScheme : r.scheme = [] → ':' ∈ r.path → schemeOk (takeUntil ':' r.path) = false

/-- Conditions on the injected token under which `_clone`'s rewrite is
idempotent: nonempty, not starting with `':'` (so the second parse sees a
truthy username), and free of the netloc/strip delimiters (true of real
GitHub tokens). -/
def tokenOk (t : List Char) : Prop :=
  t ≠ [] ∧ t.head? ≠ some ':' ∧ ∀ c ∈ t, unsafeChar c = false ∧ isNetlocEnd c = false

/-- JSON documents (`json.loads` output). -/
inductive Json where
  | null : Json
  | bool : Bool → Json
  | num : Int → Json
  | str : String → Json
  | arr : List Json → Json
  | obj : List (String × Json) → Json

/-- First binding of a key in a JSON object's field list (Python dict keys
are unique, so first = only). -/
def lookupKey : List (String × Json) → String → Option Json
  | [], _ => none
  | (k', v) :: rest, k => if k' = k then some v else lookupKey rest k

/-- Python `d[key]`: `none` models the uncaught `KeyError` (missing key) or
`TypeError` (indexing a non-dict). -/
def Json.get? : Json → String → Option Json
  | .obj fields, k => lookupKey fields k
  | _, _ => none

/-- Nested lookup along a key path (specification-side helper). -/
def getPath : Json → List String → Option Json
  | j, [] => some j
  | j, k :: ks =>
    match j.get? k with
    | some v => getPath v ks
    | none => none

/-- Uncaught Python exceptions relevant to this module: a lookup failure
(`KeyError`/`TypeError` from subscripting the payload), or the fatal
configuration error produced through the base module's `self.error`. -/
inductive PyErr where
  | keyError : String → PyErr
  | configError : String → PyErr
deriving DecidableEq

/-- `j[k]` in the exception monad. -/
def getKey (j : Json) (k : String) : Except PyErr Json :=
  match j.get? k with
  | some v => Except.ok v
  | none => Except.error (PyErr.keyError k)

/-- `j[k1][k2]`. -/
def getKey2 (j : Json) (k1 k2 : String) : Except PyErr Json :=
  match getKey j k1 with
  | Except.error e => Except.error e
  | Except.ok v => getKey v k2

/-- `j[k1][k2][k3]`. -/
def getKey3 (j : Json) (k1 k2 k3 : String) : Except PyErr Json :=
  match getKey2 j k1 k2 with
  | Except.error e => Except.error e
  | Except.ok v => getKey v k3

/-- One HTTP POST performed by `_report(url, request)`: the url argument
(a payload lookup result) and the JSON request body.  The fixed headers
(`Accept`, `Authorization: Bearer <token>`) are common to every request and
carried implicitly. -/
structure PostRequest where
  url : Json
  body : Json

/-- One finding of a code report: a dict with keys `message` and `line`
(the two keys `code_report_to_review` reads). -/
structure Issue where
  message : Json
  line : Json

/-- The request dict built in `code_report_to_review`:
`dict(path=path, commit_id=sha, body=message, line=line, side="RIGHT")`. -/
def mkReviewBody (path : String) (sha msg line : Json) : Json :=
  Json.obj [("path", Json.str path), ("commit_id", sha), ("body", msg),
            ("line", line), ("side", Json.str "RIGHT")]

/-- `self.repo.git.show("--name-only", "--oneline", checkout_id).split('\n')[1:]`:
every line of the diff-summary text except the first (commit id and
comment).  Empty lines are kept, exactly as `str.split` keeps them. -/
def commitFiles (gitShow : String) : List String :=
  ((splitOnChar '\n' gitShow.data).drop 1).map (fun l => String.mk l)

/-- The per-finding body of the inner loop of `code_report_to_review`:
look up `pull_request.head.sha`, build the request dict, then look up
`pull_request.review_comments_url` and POST (lines 101-110). -/
def issueRequest (payload : Json) (path : String) (issue : Issue) : Except PyErr PostRequest :=
  match getKey3 payload "pull_request" "head" "sha" with
  | Except.error e => Except.error e
  | Except.ok sha =>
    match getKey2 payload "pull_request" "review_comments_url" with
    | Except.error e => Except.error e
    | Except.ok url => Except.ok (PostRequest.mk url (mkReviewBody path sha issue.message issue.line))

/-- `for issue in issues: ...`: requests already POSTed before a failure are
kept, the first uncaught exception aborts the rest. -/
def runIssues (payload : Json) (path : String) : List Issue → List PostRequest × Option PyErr
  | [] => ([], none)
  | i :: rest =>
    match issueRequest payload path i with
    | Except.error e => ([], some e)
    | Except.ok req =>
      match runIssues payload path rest with
      | (rs, err) => (req :: rs, err)

/-- `for path, issues in report.items(): if path in commit_files: ...`. -/
def crtrGo (payload : Json) (cf : List String) : List (String × List Issue) → List PostRequest × Option PyErr
  | [] => ([], none)
  | (path, issues) :: rest =>
    if path ∈ cf then
      match runIssues payload path issues with
      | (rs, some e) => (rs, some e)
      | (rs, none) =>
        match crtrGo payload cf rest with
        | (rs2, err) => (rs ++ rs2, err)
    else crtrGo payload cf rest

/-- `GithubActionsMainVcs.code_report_to_review` (lines 94-110): the report
is the dict `path -> findings` in its own iteration order; the changed-file
list is computed once from the diff-summary text. -/
def code_report_to_review (payload : Json) (gitShow : String)
    (report : List (String × List Issue)) : List PostRequest × Option PyErr :=
  crtrGo payload (commitFiles gitShow) report

/-- `GithubActionsMainVcs.report_result` (lines 115-118).  `result` and
`no_vote` are accepted and unused; a falsy `report_text` (absent or empty)
is replaced by the fixed message. -/
def report_result (payload : Json) (result : Json) (report_text : Option String)
    (no_vote : Bool) : List PostRequest × Option PyErr :=
  let text :=
    match report_text with
    | none => "Universum check finished"
    | some t => if t = "" then "Universum check finished" else t
  match getKey2 payload "pull_request" "comments_url" with
  | Except.error e => ([], some e)
  | Except.ok url => ([PostRequest.mk url (Json.obj [("body", Json.str text)])], none)

/-- `GithubActionsMainVcs.get_review_link` (lines 80-81). -/
def get_review_link (payload : Json) : Except PyErr Json :=
  getKey2 payload "pull_request" "html_url"

/-- The settings populated by a successful construction. -/
structure InitState where
  repo : Json
  refspec : Json
  payload_json : Json

/-- The payload handling of `GithubActionsMainVcs.__init__` (lines 56-62).
`loads` is the external `json.loads`; only its decode failure is caught, and
the caught branch reports through `self.error`.  Modelled from the spec:
`self.error` (base module, not in scope) surfaces a `ConfigurationError`
with the given message.  The first component is the list of HTTP requests
emitted during construction (the constructor performs none). -/
def ghInit (loads : String → Except String Json) (payload : String) :
    List PostRequest × Except PyErr InitState :=
  ([],
    match loads payload with
    | Except.error err =>
      Except.error (PyErr.configError
        ("Provided payload value could not been parsed as JSON and returned the following error:\n " ++ err))
    | Except.ok pj =>
      match getKey2 pj "repository" "html_url" with
      | Except.error e => Except.error e
      | Except.ok repoUrl =>
        match getKey3 pj "pull_request" "head" "ref" with
        | Except.error e => Except.error e
        | Except.ok refspec => Except.ok (InitState.mk repoUrl refspec pj))

/-- A webhook payload with every field this module reads (witness data). -/
def payloadFull : Json :=
  Json.obj
    [("repository", Json.obj [("html_url", Json.str "https://github.com/org/repo")]),
     ("pull_request", Json.obj
       [("head", Json.obj [("ref", Json.str "feature"), ("sha", Json.str "abc123")]),
        ("html_url", Json.str "https://github.com/org/repo/pull/1"),
        ("review_comments_url", Json.str "https://api.github.com/review_comments"),
        ("comments_url", Json.str "https://api.github.com/comments")])]

/-- A payload that parses and carries the two eagerly-read fields but none
of the lazily-read ones (witness data). -/
def payloadEagerOnly : Json :=
  Json.obj
    [("repository", Json.obj [("html_url", Json.str "https://github.com/org/repo")]),
     ("pull_request", Json.obj [("head", Json.obj [("ref", Json.str "feature")])])]

/-- A `json.loads` stand-in that fails the way CPython reports a decode
error (witness data). -/
def loadsFail : String → Except String Json :=
  fun _ => Except.error "Expecting value: line 1 column 2 (char 1)"

/-- A `json.loads` stand-in returning a fixed document (witness data). -/
def loadsConst (j : Json) : String → Except String Json :=
  fun _ => Except.ok j

/-! ## Basic lemmas about the list-splitting primitives -/

theorem takeUntil_of_not_mem {c : Char} {l : List Char} (h : c ∉ l) : takeUntil c l = l := by
  induction l with
  | nil => rfl
  | cons x xs ih =>
    simp only [List.mem_cons, not_or] at h
    have hx : ¬x = c := fun e => h.1 e.symm
    simp [takeUntil, hx, ih h.2]

theorem takeUntil_append_not_mem {c : Char} {l1 : List Char} (l2 : List Char) (h : c ∉ l1) :
    takeUntil c (l1 ++ l2) = l1 ++ takeUntil c l2 := by
  induction l1 with
  | nil => rfl
  | cons x xs ih =>
    simp only [List.mem_cons, not_or] at h
    have hx : ¬x = c := fun e => h.1 e.symm
    simp [takeUntil, hx, ih h.2]

theorem takeUntil_append_self {c : Char} {l1 : List Char} (l2 : List Char) (h : c ∉ l1) :
    takeUntil c (l1 ++ c :: l2) = l1 := by
  rw [takeUntil_append_not_mem _ h]
  simp [takeUntil]

theorem takeUntil_append_left {c : Char} {l1 : List Char} (l2 : List Char) (h : c ∈ l1) :
    takeUntil c (l1 ++ l2) = takeUntil c l1 := by
  induction l1 with
  | nil => simp at h
  | cons x xs ih =>
    by_cases hxc : x = c
    · simp [takeUntil, hxc]
    · rcases List.mem_cons.mp h with h' | h'
      · exact absurd h'.symm hxc
      · simp [takeUntil, hxc, ih h']

theorem takeUntil_takeUntil {c d : Char} {l : List Char} (h : c ∈ takeUntil d l) :
    takeUntil c (takeUntil d l) = takeUntil c l := by
  induction l with
  | nil => simp [takeUntil] at h
  | cons x xs ih =>
    by_cases hxd : x = d
    · simp [takeUntil, hxd] at h
    · by_cases hxc : x = c
      · subst hxc
        rw [takeUntil, if_neg hxd, takeUntil, if_pos rfl, takeUntil, if_pos rfl]
      · rw [takeUntil, if_neg hxd] at h
        rcases List.mem_cons.mp h with h' | h'
        · exact absurd h'.symm hxc
        · simp [takeUntil, hxd, hxc, ih h']

theorem mem_takeUntil {c x : Char} {l : List Char} (h : x ∈ takeUntil c l) : x ∈ l ∧ x ≠ c := by
  induction l with
  | nil => simp [takeUntil] at h
  | cons y ys ih =>
    by_cases hyc : y = c
    · simp [takeUntil, hyc] at h
    · rw [takeUntil, if_neg hyc] at h
      rcases List.mem_cons.mp h with h' | h'
      · exact ⟨h' ▸ List.mem_cons_self y ys, h' ▸ hyc⟩
      · exact ⟨List.mem_cons_of_mem _ (ih h').1, (ih h').2⟩

theorem dropThrough_append_not_mem {c : Char} {l1 : List Char} (l2 : List Char) (h : c ∉ l1) :
    dropThrough c (l1 ++ l2) = dropThrough c l2 := by
  induction l1 with
  | nil => rfl
  | cons x xs ih =>
    simp only [List.mem_cons, not_or] at h
    have hx : ¬x = c := fun e => h.1 e.symm
    simp [dropThrough, hx, ih h.2]

theorem dropThrough_append_self {c : Char} {l1 : List Char} (l2 : List Char) (h : c ∉ l1) :
    dropThrough c (l1 ++ c :: l2) = l2 := by
  rw [dropThrough_append_not_mem _ h]
  simp [dropThrough]

theorem mem_dropThrough {c x : Char} {l : List Char} (h : x ∈ dropThrough c l) : x ∈ l := by
  induction l with
  | nil => simp [dropThrough] at h
  | cons y ys ih =>
    by_cases hyc : y = c
    · rw [dropThrough, if_pos hyc] at h
      exact List.mem_cons_of_mem _ h
    · rw [dropThrough, if_neg hyc] at h
      exact List.mem_cons_of_mem _ (ih h)

theorem netlocTake_append {l1 : List Char} (l2 : List Char) (h : ∀ c ∈ l1, isNetlocEnd c = false) :
    netlocTake (l1 ++ l2) = l1 ++ netlocTake l2 := by
  induction l1 with
  | nil => rfl
  | cons x xs ih =>
    have hx : isNetlocEnd x = false := h x (List.mem_cons_self x xs)
    simp [netlocTake, hx, ih (fun c hc => h c (List.mem_cons_of_mem _ hc))]

theorem netlocDrop_append {l1 : List Char} (l2 : List Char) (h : ∀ c ∈ l1, isNetlocEnd c = false) :
    netlocDrop (l1 ++ l2) = netlocDrop l2 := by
  induction l1 with
  | nil => rfl
  | cons x xs ih =>
    have hx : isNetlocEnd x = false := h x (List.mem_cons_self x xs)
    simp [netlocDrop, hx, ih (fun c hc => h c (List.mem_cons_of_mem _ hc))]

theorem netlocTake_all {l : List Char} : ∀ c ∈ netlocTake l, isNetlocEnd c = false := by
  induction l with
  | nil => simp [netlocTake]
  | cons x xs ih =>
    by_cases hx : isNetlocEnd x = true
    · simp [netlocTake, hx]
    · have hx' : isNetlocEnd x = false := by cases h : isNetlocEnd x; rfl; exact absurd h hx
      rw [netlocTake, if_neg (by simp [hx'])]
      intro c hc
      rcases List.mem_cons.mp hc with h' | h'
      · exact h' ▸ hx'
      · exact ih c h'

theorem mem_netlocTake {x : Char} {l : List Char} (h : x ∈ netlocTake l) : x ∈ l := by
  induction l with
  | nil => simp [netlocTake] at h
  | cons y ys ih =>
    by_cases hy : isNetlocEnd y = true
    · simp [netlocTake, hy] at h
    · rw [netlocTake, if_neg hy] at h
      rcases List.mem_cons.mp h with h' | h'
      · exact h' ▸ List.mem_cons_self y ys
      · exact List.mem_cons_of_mem _ (ih h')

theorem mem_netlocDrop {x : Char} {l : List Char} (h : x ∈ netlocDrop l) : x ∈ l := by
  induction l with
  | nil => simp [netlocDrop] at h
  | cons y ys ih =>
    by_cases hy : isNetlocEnd y = true
    · rw [netlocDrop, if_pos hy] at h
      exact h
    · rw [netlocDrop, if_neg hy] at h
      exact List.mem_cons_of_mem _ (ih h)

theorem netlocDrop_shape (l : List Char) :
    netlocDrop l = [] ∨ ∃ c t, netlocDrop l = c :: t ∧ isNetlocEnd c = true := by
  induction l with
  | nil => exact Or.inl rfl
  | cons y ys ih =>
    by_cases hy : isNetlocEnd y = true
    · exact Or.inr ⟨y, ys, by rw [netlocDrop, if_pos hy], hy⟩
    · rw [netlocDrop, if_neg hy]
      exact ih

theorem netlocTail_zero {l : List Char}
    (hl : l = [] ∨ ∃ c t, l = c :: t ∧ isNetlocEnd c = true) :
    netlocTake l = [] ∧ netlocDrop l = l := by
  rcases hl with rfl | ⟨c, t, rfl, hc⟩
  · exact ⟨rfl, rfl⟩
  · exact ⟨by rw [netlocTake, if_pos hc], by rw [netlocDrop, if_pos hc]⟩

theorem beforeLast_append_some {c : Char} {l2 r : List Char} (l1 : List Char)
    (h : beforeLast c l2 = some r) : beforeLast c (l1 ++ l2) = some (l1 ++ r) := by
  induction l1 with
  | nil => simpa using h
  | cons x xs ih => simp [beforeLast, ih]

theorem beforeLast_cons_self (c : Char) (l : List Char) :
    ∃ r, beforeLast c (c :: l) = some r := by
  cases h : beforeLast c l with
  | some r => exact ⟨c :: r, by simp [beforeLast, h]⟩
  | none => exact ⟨[], by simp [beforeLast, h]⟩

/-! ## Cleanliness (no tab/CR/LF) and character-table facts -/

theorem cleanL_nil : cleanL [] := by
  intro c hc
  simp at hc

theorem cleanL_cons {c : Char} {l : List Char} (hc : unsafeChar c = false) (h : cleanL l) :
    cleanL (c :: l) := by
  intro d hd
  rcases List.mem_cons.mp hd with rfl | hd'
  · exact hc
  · exact h d hd'

theorem cleanL_append {l1 l2 : List Char} (h1 : cleanL l1) (h2 : cleanL l2) :
    cleanL (l1 ++ l2) := by
  intro d hd
  rcases List.mem_append.mp hd with hd' | hd'
  · exact h1 d hd'
  · exact h2 d hd'

theorem cleanL_removeUnsafe (l : List Char) : cleanL (removeUnsafe l) := by
  intro c hc
  rw [removeUnsafe] at hc
  have := (List.mem_filter.mp hc).2
  simpa using this

theorem removeUnsafe_eq_self {l : List Char} (h : cleanL l) : removeUnsafe l = l := by
  apply List.filter_eq_self.mpr
  intro c hc
  simp [h c hc]

theorem schemeChars_table : ∀ c ∈ schemeChars,
    lowerChar c ∈ schemeChars ∧ lowerChar (lowerChar c) = lowerChar c ∧
    unsafeChar c = false ∧ c ≠ ':' := by decide

theorem asciiLetters_lower : ∀ c ∈ asciiLetters, lowerChar c ∈ asciiLetters := by decide

theorem schemeOk_mem {s : List Char} (h : schemeOk s = true) : ∀ d ∈ s, d ∈ schemeChars := by
  cases s with
  | nil => simp [schemeOk] at h
  | cons c rest =>
    rw [schemeOk, Bool.and_eq_true] at h
    intro d hd
    have := (List.all_eq_true.mp h.2) d hd
    exact of_decide_eq_true this

theorem schemeOk_no_colon {s : List Char} (h : schemeOk s = true) : ':' ∉ s :=
  fun hc => absurd (schemeOk_mem h ':' hc) (by decide)

theorem schemeOk_clean {s : List Char} (h : schemeOk s = true) : cleanL s :=
  fun c hc => (schemeChars_table c (schemeOk_mem h c hc)).2.2.1

theorem schemeOk_ne_nil {s : List Char} (h : schemeOk s = true) : s ≠ [] := by
  intro e
  rw [e] at h
  simp [schemeOk] at h

theorem schemeOk_cons_bad {c : Char} (rest : List Char)
    (h : decide (c ∈ asciiLetters) = false) : schemeOk (c :: rest) = false := by
  simp [schemeOk, h]

theorem schemeOk_mem_bad {s : List Char} {d : Char} (hd : d ∈ s) (hbad : d ∉ schemeChars) :
    schemeOk s = false := by
  cases hso : schemeOk s with
  | false => rfl
  | true => exact absurd (schemeOk_mem hso d hd) hbad

theorem schemeOk_lower {s : List Char} (h : schemeOk s = true) :
    schemeOk (s.map lowerChar) = true ∧ (s.map lowerChar).map lowerChar = s.map lowerChar := by
  have hmem := schemeOk_mem h
  constructor
  · cases s with
    | nil => simp [schemeOk] at h
    | cons c rest =>
      rw [schemeOk, Bool.and_eq_true] at h
      rw [List.map_cons, schemeOk, Bool.and_eq_true]
      constructor
      · exact decide_eq_true (asciiLetters_lower c (of_decide_eq_true h.1))
      · rw [← List.map_cons]
        apply List.all_eq_true.mpr
        intro d hd
        rcases List.mem_map.mp hd with ⟨e, he, rfl⟩
        exact decide_eq_true (schemeChars_table e (hmem e he)).1
  · rw [List.map_map]
    apply List.map_congr_left
    intro e he
    exact (schemeChars_table e (hmem e he)).2.1.symm ▸ rfl

theorem schemeOk_lower_clean {s : List Char} (h : schemeOk s = true) :
    cleanL (s.map lowerChar) := by
  intro c hc
  rcases List.mem_map.mp hc with ⟨e, he, rfl⟩
  have := (schemeChars_table e (schemeOk_mem h e he)).1
  exact (schemeChars_table _ this).2.2.1

/-! ## `splitScheme` lemmas -/

theorem splitScheme_attached {s : List Char} (m : List Char) (h1 : schemeOk s = true)
    (h2 : s.map lowerChar = s) : splitScheme (s ++ ':' :: m) = (s, m) := by
  have hns := schemeOk_no_colon h1
  have hmem : ':' ∈ s ++ ':' :: m := List.mem_append.mpr (Or.inr (List.mem_cons_self _ _))
  rw [splitScheme, if_pos hmem]
  rw [takeUntil_append_self m hns]
  rw [if_pos h1, h2, dropThrough_append_self m hns]

theorem splitScheme_none {cs : List Char}
    (h : ':' ∈ cs → schemeOk (takeUntil ':' cs) = false) : splitScheme cs = ([], cs) := by
  by_cases hm : ':' ∈ cs
  · rw [splitScheme, if_pos hm, if_neg (by simp [h hm])]
  · rw [splitScheme, if_neg hm]

theorem splitScheme_head_bad {l : List Char}
    (h : ∀ c t, l = c :: t → decide (c ∈ asciiLetters) = false ∨ c = ':') :
    splitScheme l = ([], l) := by
  apply splitScheme_none
  intro hm
  cases l with
  | nil => simp at hm
  | cons c t =>
    rcases h c t rfl with hbad | rfl
    · by_cases hc : c = ':'
      · subst hc
        rw [takeUntil, if_pos rfl]
        rfl
      · rw [takeUntil, if_neg hc]
        exact schemeOk_cons_bad _ hbad
    · rw [takeUntil, if_pos rfl]
      rfl

theorem splitScheme_cases (cs : List Char) :
    splitScheme cs = ([], cs) ∨
    (schemeOk (takeUntil ':' cs) = true ∧ ':' ∈ cs ∧
     splitScheme cs = ((takeUntil ':' cs).map lowerChar, dropThrough ':' cs)) := by
  by_cases h1 : ':' ∈ cs
  · by_cases h2 : schemeOk (takeUntil ':' cs) = true
    · exact Or.inr ⟨h2, h1, by rw [splitScheme, if_pos h1, if_pos h2]⟩
    · exact Or.inl (by rw [splitScheme, if_pos h1, if_neg h2])
  · exact Or.inl (by rw [splitScheme, if_neg h1])

theorem splitScheme_fst_nil {cs : List Char} (h : (splitScheme cs).1 = []) :
    (splitScheme cs).2 = cs ∧ (':' ∈ cs → schemeOk (takeUntil ':' cs) = false) := by
  rcases splitScheme_cases cs with hs | ⟨hok, hm, hs⟩
  · refine ⟨by rw [hs], fun hmm => ?_⟩
    by_cases h2 : schemeOk (takeUntil ':' cs) = true
    · rw [splitScheme, if_pos hmm, if_pos h2] at hs
      have := congrArg Prod.fst hs
      simp at this
      rw [this] at h2
      simp [schemeOk] at h2
    · cases hb : schemeOk (takeUntil ':' cs) with
      | false => rfl
      | true => exact absurd hb h2
  · rw [hs] at h
    simp at h
    rw [h] at hok
    simp [schemeOk] at hok

theorem splitScheme_mem₂ {x : Char} {cs : List Char} (h : x ∈ (splitScheme cs).2) : x ∈ cs := by
  rcases splitScheme_cases cs with hs | ⟨_, _, hs⟩
  · rw [hs] at h
    exact h
  · rw [hs] at h
    exact mem_dropThrough h

/-! ## Reassembly: `urlsplit` of `urlunsplit` output -/

theorem unsplit_eq_mid (r : SplitRes) :
    urlunsplitL r = (if r.scheme = [] then [] else r.scheme ++ [':']) ++ midOf r := by
  rw [urlunsplitL, midOf, tailQF, fixPath]
  by_cases h1 : r.netloc ≠ [] ∨ r.path.take 2 = ['/', '/'] <;>
    by_cases h2 : r.scheme = [] <;>
      by_cases h3 : r.query = [] <;>
        by_cases h4 : r.fragment = [] <;>
          by_cases h5 : r.path ≠ [] ∧ r.path.head? ≠ some '/' <;>
            simp [h1, h2, h3, h4, h5, List.append_assoc]

theorem fixPath_cases (r : SplitRes) : fixPath r = r.path ∨ fixPath r = '/' :: r.path := by
  rw [fixPath]
  by_cases h : (r.netloc ≠ [] ∨ r.path.take 2 = ['/', '/']) ∧ r.path ≠ [] ∧ r.path.head? ≠ some '/'
  · exact Or.inr (if_pos h)
  · exact Or.inl (if_neg h)

theorem mem_fixPath {x : Char} {r : SplitRes} (h : x ∈ fixPath r) : x ∈ r.path ∨ x = '/' := by
  rcases fixPath_cases r with he | he <;> rw [he] at h
  · exact Or.inl h
  · rcases List.mem_cons.mp h with h' | h'
    · exact Or.inr h'
    · exact Or.inl h'

theorem hash_not_mem_fixPath {r : SplitRes} (h : Good r) : '#' ∉ fixPath r := by
  intro hc
  rcases mem_fixPath hc with h' | h'
  · exact h.pHash h'
  · exact absurd h' (by decide)

theorem qm_not_mem_fixPath {r : SplitRes} (h : Good r) : '?' ∉ fixPath r := by
  intro hc
  rcases mem_fixPath hc with h' | h'
  · exact h.pQm h'
  · exact absurd h' (by decide)

theorem clean_fixPath {r : SplitRes} (h : Good r) : cleanL (fixPath r) := by
  rcases fixPath_cases r with he | he <;> rw [he]
  · exact h.pClean
  · exact cleanL_cons (by decide) h.pClean

theorem clean_tailQF {r : SplitRes} (h : Good r) : cleanL (tailQF r) := by
  rw [tailQF]
  apply cleanL_append
  · by_cases h3 : r.query = []
    · rw [if_pos h3]
      exact cleanL_nil
    · rw [if_neg h3]
      exact cleanL_cons (by decide) h.qClean
  · by_cases h4 : r.fragment = []
    · rw [if_pos h4]
      exact cleanL_nil
    · rw [if_neg h4]
      exact cleanL_cons (by decide) h.fClean

theorem clean_unsplit (r : SplitRes) (h : Good r) : cleanL (urlunsplitL r) := by
  rw [unsplit_eq_mid, midOf]
  apply cleanL_append
  · by_cases h2 : r.scheme = []
    · rw [if_pos h2]
      exact cleanL_nil
    · rw [if_neg h2]
      exact cleanL_append h.sClean (cleanL_cons (by decide) cleanL_nil)
  · apply cleanL_append
    · by_cases h1 : r.netloc ≠ [] ∨ r.path.take 2 = ['/', '/']
      · rw [if_pos h1]
        exact cleanL_cons (by decide) (cleanL_cons (by decide)
          (cleanL_append h.nClean (clean_fixPath h)))
      · rw [if_neg h1]
        exact clean_fixPath h
    · exact clean_tailQF h

theorem tailQF_shape (r : SplitRes) :
    tailQF r = [] ∨ (∃ t, tailQF r = '?' :: t) ∨ (∃ t, tailQF r = '#' :: t) := by
  rw [tailQF]
  by_cases h3 : r.query = []
  · by_cases h4 : r.fragment = []
    · exact Or.inl (by rw [if_pos h3, if_pos h4]; rfl)
    · exact Or.inr (Or.inr ⟨r.fragment, by rw [if_pos h3, if_neg h4, List.nil_append]⟩)
  · exact Or.inr (Or.inl ⟨r.query ++ (if r.fragment = [] then [] else '#' :: r.fragment),
      by rw [if_neg h3, List.cons_append]⟩)

theorem fixPath_flag_head {r : SplitRes} (h1 : r.netloc ≠ [] ∨ r.path.take 2 = ['/', '/']) :
    fixPath r = [] ∨ (fixPath r).head? = some '/' := by
  rw [fixPath]
  by_cases h5 : r.path ≠ [] ∧ r.path.head? ≠ some '/'
  · rw [if_pos ⟨h1, h5⟩]
    exact Or.inr rfl
  · rw [if_neg (fun hc => h5 hc.2)]
    by_cases hp : r.path = []
    · exact Or.inl hp
    · by_cases hh : r.path.head? = some '/'
      · exact Or.inr hh
      · exact absurd ⟨hp, hh⟩ h5

theorem fixTail_shape {r : SplitRes} (h1 : r.netloc ≠ [] ∨ r.path.take 2 = ['/', '/']) :
    fixPath r ++ tailQF r = [] ∨
    ∃ c t, fixPath r ++ tailQF r = c :: t ∧ isNetlocEnd c = true := by
  rcases fixPath_flag_head h1 with hf | hf
  · rw [hf, List.nil_append]
    rcases tailQF_shape r with ht | ⟨t, ht⟩ | ⟨t, ht⟩
    · exact Or.inl ht
    · exact Or.inr ⟨'?', t, ht, by decide⟩
    · exact Or.inr ⟨'#', t, ht, by decide⟩
  · cases hfp : fixPath r with
    | nil =>
      rw [hfp] at hf
      simp at hf
    | cons c cs =>
      rw [hfp] at hf
      simp only [List.head?] at hf
      have hc : c = '/' := by injection hf
      exact Or.inr ⟨c, cs ++ tailQF r, rfl, by rw [hc]; decide⟩

theorem take2_append_ne {p z : List Char} (hp : ¬p.take 2 = ['/', '/'])
    (hz : z = [] ∨ (∃ t, z = '?' :: t) ∨ (∃ t, z = '#' :: t)) :
    ¬(p ++ z).take 2 = ['/', '/'] := by
  cases p with
  | nil =>
    rcases hz with rfl | ⟨t, rfl⟩ | ⟨t, rfl⟩
    · simpa using hp
    · intro hc
      rw [List.nil_append] at hc
      have : '?' = '/' := by
        have := congrArg List.head? hc
        simpa [List.take] using this
      exact absurd this (by decide)
    · intro hc
      rw [List.nil_append] at hc
      have : '#' = '/' := by
        have := congrArg List.head? hc
        simpa [List.take] using this
      exact absurd this (by decide)
  | cons a p' =>
    cases p' with
    | nil =>
      rcases hz with rfl | ⟨t, rfl⟩ | ⟨t, rfl⟩
      · simpa using hp
      · intro hc
        simp [List.take] at hc
      · intro hc
        simp [List.take] at hc
    | cons b p'' =>
      intro hc
      simp [List.take] at hc hp
      exact hp hc.1 hc.2

theorem splitNetloc2_mid (r : SplitRes) (h : Good r) :
    splitNetloc2 (midOf r) = (r.netloc, fixPath r ++ tailQF r) := by
  rw [midOf]
  by_cases h1 : r.netloc ≠ [] ∨ r.path.take 2 = ['/', '/']
  · rw [if_pos h1, List.cons_append, List.cons_append, List.append_assoc]
    have ht2 : List.take 2 ('/' :: '/' :: (r.netloc ++ (fixPath r ++ tailQF r))) = ['/', '/'] := rfl
    rw [splitNetloc2, if_pos ht2]
    show (netlocTake (r.netloc ++ (fixPath r ++ tailQF r)),
          netlocDrop (r.netloc ++ (fixPath r ++ tailQF r))) = _
    rw [netlocTake_append _ h.nEnd, netlocDrop_append _ h.nEnd]
    have hz := netlocTail_zero (fixTail_shape h1)
    rw [hz.1, hz.2, List.append_nil]
  · have hn : r.netloc = [] := by
      by_cases hh : r.netloc = []
      · exact hh
      · exact absurd (Or.inl hh) h1
    have hfp : fixPath r = r.path := by rw [fixPath, if_neg (fun hc => h1 hc.1)]
    rw [if_neg h1, splitNetloc2, if_neg ?_, hn]
    rw [hfp]
    exact take2_append_ne (fun hc => h1 (Or.inr hc)) (tailQF_shape r)

theorem splitFrag_mid (r : SplitRes) (h : Good r) :
    splitFrag (fixPath r ++ tailQF r) =
      (fixPath r ++ (if r.query = [] then [] else '?' :: r.query), r.fragment) := by
  have hq : '#' ∉ fixPath r ++ (if r.query = [] then [] else '?' :: r.query) := by
    intro hc
    rcases List.mem_append.mp hc with hc' | hc'
    · exact hash_not_mem_fixPath h hc'
    · by_cases h3 : r.query = []
      · rw [if_pos h3] at hc'
        simp at hc'
      · rw [if_neg h3] at hc'
        rcases List.mem_cons.mp hc' with he | he
        · exact absurd he (by decide)
        · exact h.qHash he
  rw [tailQF]
  by_cases h4 : r.fragment = []
  · rw [if_pos h4, List.append_nil, splitFrag, if_neg hq, h4]
  · rw [if_neg h4, ← List.append_assoc]
    rw [splitFrag, if_pos (List.mem_append.mpr (Or.inr (List.mem_cons_self _ _)))]
    rw [takeUntil_append_self _ hq, dropThrough_append_self _ hq]

theorem splitQuery_mid (r : SplitRes) (h : Good r) :
    splitQuery (fixPath r ++ (if r.query = [] then [] else '?' :: r.query)) =
      (fixPath r, r.query) := by
  have hq := qm_not_mem_fixPath h
  by_cases h3 : r.query = []
  · rw [if_pos h3, List.append_nil, splitQuery, if_neg hq, h3]
  · rw [if_neg h3, splitQuery, if_pos (List.mem_append.mpr (Or.inr (List.mem_cons_self _ _)))]
    rw [takeUntil_append_self _ hq, dropThrough_append_self _ hq]

theorem splitScheme_mid_empty (r : SplitRes) (h : Good r) (hs : r.scheme = []) :
    splitScheme (midOf r) = ([], midOf r) := by
  rw [midOf]
  by_cases h1 : r.netloc ≠ [] ∨ r.path.take 2 = ['/', '/']
  · rw [if_pos h1]
    apply splitScheme_head_bad
    intro c t hct
    rw [List.cons_append] at hct
    injection hct with hc _
    exact Or.inl (by rw [← hc]; decide)
  · rw [if_neg h1]
    have hfp : fixPath r = r.path := by rw [fixPath, if_neg (fun hc => h1 hc.1)]
    rw [hfp]
    apply splitScheme_none
    intro hm
    by_cases hcol : ':' ∈ r.path
    · rw [takeUntil_append_left _ hcol]
      exact h.pScheme hs hcol
    · rw [takeUntil_append_not_mem _ hcol]
      have hmt : ':' ∈ tailQF r := by
        rcases List.mem_append.mp hm with hc' | hc'
        · exact absurd hc' hcol
        · exact hc'
      rcases tailQF_shape r with ht | ⟨t', ht⟩ | ⟨t', ht⟩
      · rw [ht] at hmt
        simp at hmt
      · rw [ht, takeUntil, if_neg (by decide)]
        exact schemeOk_mem_bad (List.mem_append.mpr (Or.inr (List.mem_cons_self _ _))) (by decide)
      · rw [ht, takeUntil, if_neg (by decide)]
        exact schemeOk_mem_bad (List.mem_append.mpr (Or.inr (List.mem_cons_self _ _))) (by decide)

theorem splitScheme_mid (r : SplitRes) (h : Good r) :
    splitScheme (urlunsplitL r) = (r.scheme, midOf r) := by
  rw [unsplit_eq_mid]
  by_cases hs : r.scheme = []
  · rw [if_pos hs, List.nil_append, splitScheme_mid_empty r h hs, hs]
  · rcases h.sOk with hs' | ⟨hok, hlow⟩
    · exact absurd hs' hs
    · rw [if_neg hs, List.append_assoc, List.singleton_append]
      exact splitScheme_attached _ hok hlow

theorem split_unsplit (r : SplitRes) (h : Good r) :
    urlsplitL (urlunsplitL r) = normPathFix r := by
  simp only [urlsplitL, normPathFix]
  rw [removeUnsafe_eq_self (clean_unsplit r h)]
  rw [splitScheme_mid r h]
  simp only []
  rw [splitNetloc2_mid r h]
  simp only []
  rw [splitFrag_mid r h]
  simp only []
  rw [splitQuery_mid r h]

/-! ## The image of `urlsplitL` satisfies the invariants -/

theorem splitNetloc2_mem₁ {x : Char} {cs : List Char} (h : x ∈ (splitNetloc2 cs).1) : x ∈ cs := by
  rw [splitNetloc2] at h
  by_cases h2 : cs.take 2 = ['/', '/']
  · rw [if_pos h2] at h
    exact List.mem_of_mem_drop (mem_netlocTake h)
  · rw [if_neg h2] at h
    simp at h

theorem splitNetloc2_mem₂ {x : Char} {cs : List Char} (h : x ∈ (splitNetloc2 cs).2) : x ∈ cs := by
  rw [splitNetloc2] at h
  by_cases h2 : cs.take 2 = ['/', '/']
  · rw [if_pos h2] at h
    exact List.mem_of_mem_drop (mem_netlocDrop h)
  · rw [if_neg h2] at h
    exact h

theorem splitFrag_mem₁ {x : Char} {cs : List Char} (h : x ∈ (splitFrag cs).1) : x ∈ cs := by
  rw [splitFrag] at h
  by_cases h2 : '#' ∈ cs
  · rw [if_pos h2] at h
    exact (mem_takeUntil h).1
  · rw [if_neg h2] at h
    exact h

theorem splitFrag_mem₂ {x : Char} {cs : List Char} (h : x ∈ (splitFrag cs).2) : x ∈ cs := by
  rw [splitFrag] at h
  by_cases h2 : '#' ∈ cs
  · rw [if_pos h2] at h
    exact mem_dropThrough h
  · rw [if_neg h2] at h
    simp at h

theorem splitQuery_mem₁ {x : Char} {cs : List Char} (h : x ∈ (splitQuery cs).1) : x ∈ cs := by
  rw [splitQuery] at h
  by_cases h2 : '?' ∈ cs
  · rw [if_pos h2] at h
    exact (mem_takeUntil h).1
  · rw [if_neg h2] at h
    exact h

theorem splitQuery_mem₂ {x : Char} {cs : List Char} (h : x ∈ (splitQuery cs).2) : x ∈ cs := by
  rw [splitQuery] at h
  by_cases h2 : '?' ∈ cs
  · rw [if_pos h2] at h
    exact mem_dropThrough h
  · rw [if_neg h2] at h
    simp at h

theorem splitNetloc2_fst_end (cs : List Char) :
    ∀ c ∈ (splitNetloc2 cs).1, isNetlocEnd c = false := by
  rw [splitNetloc2]
  by_cases h2 : cs.take 2 = ['/', '/']
  · rw [if_pos h2]
    exact netlocTake_all
  · rw [if_neg h2]
    intro c hc
    simp at hc

theorem splitQuery_fst_no_qm (cs : List Char) : '?' ∉ (splitQuery cs).1 := by
  rw [splitQuery]
  by_cases h : '?' ∈ cs
  · rw [if_pos h]
    intro hc
    exact (mem_takeUntil hc).2 rfl
  · rw [if_neg h]
    exact h

theorem splitFrag_fst_no_hash (cs : List Char) : '#' ∉ (splitFrag cs).1 := by
  rw [splitFrag]
  by_cases h : '#' ∈ cs
  · rw [if_pos h]
    intro hc
    exact (mem_takeUntil hc).2 rfl
  · rw [if_neg h]
    exact h

theorem splitScheme_fst_ok (cs : List Char) :
    (splitScheme cs).1 = [] ∨
    (schemeOk (splitScheme cs).1 = true ∧ (splitScheme cs).1.map lowerChar = (splitScheme cs).1) := by
  rcases splitScheme_cases cs with hs | ⟨hok, _, hs⟩
  · rw [hs]
    exact Or.inl rfl
  · rw [hs]
    exact Or.inr (schemeOk_lower hok)

theorem splitScheme_fst_clean (cs : List Char) : cleanL (splitScheme cs).1 := by
  rcases splitScheme_cases cs with hs | ⟨hok, _, hs⟩
  · rw [hs]
    exact cleanL_nil
  · rw [hs]
    exact schemeOk_lower_clean hok

theorem splitFrag_fst_head_keep {c : Char} (t : List Char) (hc : ¬c = '#') :
    ∃ t', (splitFrag (c :: t)).1 = c :: t' := by
  rw [splitFrag]
  by_cases h : '#' ∈ c :: t
  · rw [if_pos h, takeUntil, if_neg hc]
    exact ⟨_, rfl⟩
  · rw [if_neg h]
    exact ⟨t, rfl⟩

theorem splitQuery_fst_head_keep {c : Char} (t : List Char) (hc : ¬c = '?') :
    ∃ t', (splitQuery (c :: t)).1 = c :: t' := by
  rw [splitQuery]
  by_cases h : '?' ∈ c :: t
  · rw [if_pos h, takeUntil, if_neg hc]
    exact ⟨_, rfl⟩
  · rw [if_neg h]
    exact ⟨t, rfl⟩

theorem path_of_end_rest {rest : List Char}
    (h : rest = [] ∨ ∃ c t, rest = c :: t ∧ isNetlocEnd c = true) :
    (splitQuery (splitFrag rest).1).1 = [] ∨
    ((splitQuery (splitFrag rest).1).1).head? = some '/' := by
  rcases h with rfl | ⟨c, t, rfl, hc⟩
  · left
    simp [splitFrag, splitQuery]
  · have hcc : (c = '/' ∨ c = '?') ∨ c = '#' := by
      rw [isNetlocEnd] at hc
      simpa using hc
    rcases hcc with (rfl | rfl) | rfl
    · obtain ⟨t1, h1⟩ := @splitFrag_fst_head_keep '/' t (by decide)
      rw [h1]
      obtain ⟨t2, h2⟩ := @splitQuery_fst_head_keep '/' t1 (by decide)
      rw [h2]
      exact Or.inr rfl
    · obtain ⟨t1, h1⟩ := @splitFrag_fst_head_keep '?' t (by decide)
      rw [h1]
      left
      rw [splitQuery, if_pos (List.mem_cons_self _ _), takeUntil, if_pos rfl]
    · left
      rw [splitFrag, if_pos (List.mem_cons_self _ _), takeUntil, if_pos rfl]
      simp [splitQuery]

theorem takeUntil_splitQuery {cs : List Char} (h : ':' ∈ (splitQuery cs).1) :
    takeUntil ':' (splitQuery cs).1 = takeUntil ':' cs := by
  rw [splitQuery] at h ⊢
  by_cases hq : '?' ∈ cs
  · rw [if_pos hq] at h ⊢
    exact takeUntil_takeUntil h
  · rw [if_neg hq]

theorem takeUntil_splitFrag {cs : List Char} (h : ':' ∈ (splitFrag cs).1) :
    takeUntil ':' (splitFrag cs).1 = takeUntil ':' cs := by
  rw [splitFrag] at h ⊢
  by_cases hq : '#' ∈ cs
  · rw [if_pos hq] at h ⊢
    exact takeUntil_takeUntil h
  · rw [if_neg hq]

theorem good_urlsplit (cs0 : List Char) : Good (urlsplitL cs0) := by
  simp only [urlsplitL]
  have hclean : cleanL (removeUnsafe cs0) := cleanL_removeUnsafe cs0
  refine ⟨?_, ?_, ?_, ?_, ?_, ?_, ?_, ?_, ?_, ?_, ?_⟩
  · exact splitScheme_fst_clean _
  · intro c hc
    exact hclean c (splitScheme_mem₂ (splitNetloc2_mem₁ hc))
  · intro c hc
    exact hclean c (splitScheme_mem₂ (splitNetloc2_mem₂ (splitFrag_mem₁ (splitQuery_mem₁ hc))))
  · intro c hc
    exact hclean c (splitScheme_mem₂ (splitNetloc2_mem₂ (splitFrag_mem₁ (splitQuery_mem₂ hc))))
  · intro c hc
    exact hclean c (splitScheme_mem₂ (splitNetloc2_mem₂ (splitFrag_mem₂ hc)))
  · exact splitScheme_fst_ok _
  · exact splitNetloc2_fst_end _
  · intro hc
    exact splitFrag_fst_no_hash _ (splitQuery_mem₁ hc)
  · exact splitQuery_fst_no_qm _
  · intro hc
    exact splitFrag_fst_no_hash _ (splitQuery_mem₂ hc)
  · intro hs hcol
    dsimp only at hs hcol ⊢
    have hnil := splitScheme_fst_nil hs
    rw [hnil.1] at hcol ⊢
    by_cases h2 : (removeUnsafe cs0).take 2 = ['/', '/']
    · have hrest : (splitNetloc2 (removeUnsafe cs0)).2
          = netlocDrop ((removeUnsafe cs0).drop 2) := by
        rw [splitNetloc2, if_pos h2]
      rw [hrest] at hcol ⊢
      rcases path_of_end_rest (netlocDrop_shape ((removeUnsafe cs0).drop 2)) with hp | hp
      · rw [hp] at hcol
        simp at hcol
      · cases hpe : (splitQuery (splitFrag (netlocDrop ((removeUnsafe cs0).drop 2))).1).1 with
        | nil =>
          rw [hpe] at hcol
          simp at hcol
        | cons a t =>
          rw [hpe] at hp hcol
          have ha : a = '/' := by
            simp only [List.head?] at hp
            injection hp
          by_cases hac : a = ':'
          · rw [hac] at ha
            exact absurd ha (by decide)
          · rw [takeUntil, if_neg hac]
            exact schemeOk_cons_bad _ (by rw [ha]; decide)
    · have hrest : (splitNetloc2 (removeUnsafe cs0)).2 = removeUnsafe cs0 := by
        rw [splitNetloc2, if_neg h2]
      rw [hrest] at hcol ⊢
      have e1 := takeUntil_splitQuery hcol
      have e2 := takeUntil_splitFrag (splitQuery_mem₁ hcol)
      rw [e1, e2]
      exact hnil.2 (splitFrag_mem₁ (splitQuery_mem₁ hcol))

theorem urlsplit_inv6 (cs0 : List Char) :
    (urlsplitL cs0).netloc ≠ [] →
    (urlsplitL cs0).path = [] ∨ (urlsplitL cs0).path.head? = some '/' := by
  intro hn
  simp only [urlsplitL] at hn ⊢
  by_cases h2 : ((removeUnsafe cs0) : List Char).take 2 = ['/', '/']
  all_goals by_cases h3 : ((splitScheme (removeUnsafe cs0)).2).take 2 = ['/', '/']
  all_goals try {
    have hrest : (splitNetloc2 (splitScheme (removeUnsafe cs0)).2).2
        = netlocDrop (((splitScheme (removeUnsafe cs0)).2).drop 2) := by
      rw [splitNetloc2, if_pos h3]
    rw [hrest]
    exact path_of_end_rest (netlocDrop_shape _) }
  all_goals {
    exfalso
    apply hn
    rw [splitNetloc2, if_neg h3] }

/-! ## `normPathFix` lemmas -/

theorem take2_head {l : List Char} (h : l.take 2 = ['/', '/']) : l.head? = some '/' := by
  cases l with
  | nil => simp at h
  | cons a t =>
    have : a = '/' := by
      have h2 := congrArg List.head? h
      simpa [List.take] using h2
    rw [this]
    rfl

theorem normPathFix_id {r : SplitRes}
    (h6 : r.netloc ≠ [] → r.path = [] ∨ r.path.head? = some '/') : normPathFix r = r := by
  rw [normPathFix, fixPath, if_neg ?_]
  · rintro ⟨h1 | h1, h2, h3⟩
    · rcases h6 h1 with hp | hp
      · exact h2 hp
      · exact h3 hp
    · exact h3 (take2_head h1)

theorem normPathFix_abs {r : SplitRes} (h : r.path = [] ∨ r.path.head? = some '/') :
    normPathFix r = r := by
  rw [normPathFix, fixPath, if_neg ?_]
  · rintro ⟨_, h2, h3⟩
    rcases h with hp | hp
    · exact h2 hp
    · exact h3 hp

theorem unsplit_normPathFix (r : SplitRes) : urlunsplitL (normPathFix r) = urlunsplitL r := by
  by_cases hc : (r.netloc ≠ [] ∨ r.path.take 2 = ['/', '/']) ∧ r.path ≠ [] ∧ r.path.head? ≠ some '/'
  · have hfp : fixPath r = '/' :: r.path := by rw [fixPath, if_pos hc]
    have hn : r.netloc ≠ [] := by
      rcases hc.1 with h1 | h1
      · exact h1
      · exact absurd (take2_head h1) hc.2.2
    have hpath : (normPathFix r).path = '/' :: r.path := hfp
    have hnet : (normPathFix r).netloc = r.netloc := rfl
    have hfix2 : fixPath (normPathFix r) = fixPath r := by
      rw [fixPath, hpath, hnet, if_neg ?_]
      · exact hfp.symm
      · rintro ⟨_, _, hh⟩
        exact hh rfl
    have hmid : midOf (normPathFix r) = midOf r := by
      rw [midOf, midOf, hfix2, hnet, hpath, if_pos (Or.inl hn), if_pos (Or.inl hn)]
      rfl
    rw [unsplit_eq_mid, unsplit_eq_mid, hmid, show (normPathFix r).scheme = r.scheme from rfl]
  · rw [show normPathFix r = r by rw [normPathFix, fixPath, if_neg hc]]

/-! ## The `_clone` credential injection -/

theorem takeUntil_head_ne {t : List Char} (z : List Char) (h1 : t ≠ []) (h2 : t.head? ≠ some ':') :
    (takeUntil ':' (t ++ z)).isEmpty = false := by
  cases t with
  | nil => exact absurd rfl h1
  | cons x xs =>
    have hx : ¬x = ':' := by
      intro e
      exact h2 (by rw [e]; rfl)
    rw [List.cons_append, takeUntil, if_neg hx]
    rfl

theorem usernameFalsy_token {t n : List Char} (h1 : t ≠ []) (h2 : t.head? ≠ some ':') :
    usernameFalsy (t ++ '@' :: n) = false := by
  obtain ⟨r, hr⟩ := beforeLast_cons_self '@' n
  have hb := beforeLast_append_some t hr
  unfold usernameFalsy
  rw [hb]
  exact takeUntil_head_ne r h1 h2

theorem good_inject {r : SplitRes} (h : Good r) (hsch : r.scheme = ("https").data)
    {t : List Char} (hclean : ∀ c ∈ t, unsafeChar c = false ∧ isNetlocEnd c = false) :
    Good (SplitRes.mk r.scheme (t ++ '@' :: r.netloc) r.path r.query r.fragment) := by
  refine ⟨h.sClean, ?_, h.pClean, h.qClean, h.fClean, ?_, ?_, h.pHash, h.pQm, h.qHash, ?_⟩
  · intro c hc
    rcases List.mem_append.mp hc with hc' | hc'
    · exact (hclean c hc').1
    · rcases List.mem_cons.mp hc' with rfl | hc''
      · decide
      · exact h.nClean c hc''
  · refine Or.inr ?_
    show schemeOk r.scheme = true ∧ r.scheme.map lowerChar = r.scheme
    rw [hsch]
    exact ⟨by decide, by decide⟩
  · intro c hc
    rcases List.mem_append.mp hc with hc' | hc'
    · exact (hclean c hc').2
    · rcases List.mem_cons.mp hc' with rfl | hc''
      · decide
      · exact h.nEnd c hc''
  · intro he
    have he' : r.scheme = [] := he
    rw [hsch] at he'
    exact absurd he' (by decide)

theorem injectL_pos (t : List Char) {u : List Char}
    (hc : (urlsplitL u).scheme = ("https").data ∧ usernameFalsy (urlsplitL u).netloc = true) :
    injectL t u = urlunsplitL (SplitRes.mk (urlsplitL u).scheme
      (t ++ '@' :: (urlsplitL u).netloc) (urlsplitL u).path (urlsplitL u).query
      (urlsplitL u).fragment) := by
  simp only [injectL]
  rw [if_pos hc]

theorem injectL_neg (t : List Char) {u : List Char}
    (hc : ¬((urlsplitL u).scheme = ("https").data ∧ usernameFalsy (urlsplitL u).netloc = true)) :
    injectL t u = urlunsplitL (urlsplitL u) := by
  simp only [injectL]
  rw [if_neg hc]

theorem injectL_idem {t u : List Char} (ht : tokenOk t) :
    injectL t (injectL t u) = injectL t u := by
  obtain ⟨h1, h2, h3⟩ := ht
  by_cases hc : (urlsplitL u).scheme = ("https").data ∧ usernameFalsy (urlsplitL u).netloc = true
  · have hG' := good_inject (good_urlsplit u) hc.1 h3
    have e1 := injectL_pos t hc
    have e2 := split_unsplit _ hG'
    have hu : usernameFalsy (normPathFix (SplitRes.mk (urlsplitL u).scheme
        (t ++ '@' :: (urlsplitL u).netloc) (urlsplitL u).path (urlsplitL u).query
        (urlsplitL u).fragment)).netloc = false := usernameFalsy_token h1 h2
    rw [e1]
    simp only [injectL]
    rw [e2, if_neg ?_]
    · exact unsplit_normPathFix _
    · rintro ⟨_, hx⟩
      rw [hu] at hx
      exact Bool.false_ne_true hx
  · have e1 := injectL_neg t hc
    have e2 : urlsplitL (urlunsplitL (urlsplitL u)) = normPathFix (urlsplitL u) :=
      split_unsplit _ (good_urlsplit u)
    have e3 : normPathFix (urlsplitL u) = urlsplitL u := normPathFix_id (urlsplit_inv6 u)
    rw [e1]
    simp only [injectL]
    rw [e2, e3, if_neg hc]

/-! ## Claims about credential injection and the changed-file set -/

/-- C2 (amended): for a URL whose parsed scheme is `https` and whose netloc
embeds no username, and a token free of `/?#` and of tab/CR/LF, `_clone`
rewrites the parsed authority to `token@original-authority` and leaves the
parsed scheme, query and fragment unchanged; the parsed path is unchanged
whenever it is empty or absolute, and in general only gains the leading `/`
that `urlunsplit` inserts between an authority and a relative path.  For a
URL that already carries a username or whose parsed scheme is not `https`,
`_clone` returns the `urlsplit`/`urlunsplit` canonicalization of the URL,
whose parsed components all equal those of the input (so the URL string
itself is unchanged exactly when it was already canonical). -/
theorem c2_inject_components (t u : String)
    (ht : ∀ c ∈ t.data, unsafeChar c = false ∧ isNetlocEnd c = false) :
    (((urlsplitL u.data).scheme = ("https").data ∧
        usernameFalsy (urlsplitL u.data).netloc = true) →
      urlsplitL (injectUrl t u).data =
        normPathFix (SplitRes.mk (urlsplitL u.data).scheme
          (t.data ++ '@' :: (urlsplitL u.data).netloc) (urlsplitL u.data).path
          (urlsplitL u.data).query (urlsplitL u.data).fragment) ∧
      ((urlsplitL u.data).path = [] ∨ (urlsplitL u.data).path.head? = some '/' →
        urlsplitL (injectUrl t u).data =
          SplitRes.mk (urlsplitL u.data).scheme
            (t.data ++ '@' :: (urlsplitL u.data).netloc) (urlsplitL u.data).path
            (urlsplitL u.data).query (urlsplitL u.data).fragment)) ∧
    ((¬((urlsplitL u.data).scheme = ("https").data ∧
        usernameFalsy (urlsplitL u.data).netloc = true)) →
      injectUrl t u = String.mk (urlunsplitL (urlsplitL u.data)) ∧
      urlsplitL (injectUrl t u).data = urlsplitL u.data) := by
  constructor
  · intro hc
    have hG' := good_inject (good_urlsplit u.data) hc.1 ht
    have e1 := injectL_pos t.data hc
    have hsplit : urlsplitL (injectUrl t u).data =
        normPathFix (SplitRes.mk (urlsplitL u.data).scheme
          (t.data ++ '@' :: (urlsplitL u.data).netloc) (urlsplitL u.data).path
          (urlsplitL u.data).query (urlsplitL u.data).fragment) := by
      show urlsplitL (injectL t.data u.data) = _
      rw [e1]
      exact split_unsplit _ hG'
    refine ⟨hsplit, fun habs => ?_⟩
    rw [hsplit]
    exact normPathFix_abs habs
  · intro hc
    have e1 := injectL_neg t.data hc
    constructor
    · show String.mk (injectL t.data u.data) = _
      rw [e1]
    · show urlsplitL (injectL t.data u.data) = _
      rw [e1, split_unsplit _ (good_urlsplit u.data), normPathFix_id (urlsplit_inv6 u.data)]

/-- C2 counterexample: the claim promises that a URL whose scheme is not
`https` is returned unchanged, but `_clone` unconditionally re-serializes
the parse, which lowercases the scheme: `SSH://host/x` comes back as
`ssh://host/x`. -/
theorem c2_inject_components_cex :
    (urlsplitL ("SSH://host/x").data).scheme ≠ ("https").data ∧
    injectUrl "tok" "SSH://host/x" = "ssh://host/x" ∧
    injectUrl "tok" "SSH://host/x" ≠ "SSH://host/x" := by decide

/-- C2 witness: a plain GitHub clone URL with token `tok` gets authority
`tok@github.com` with scheme, path, query and fragment untouched. -/
theorem c2_inject_components_witness :
    (∀ c ∈ ("tok").data, unsafeChar c = false ∧ isNetlocEnd c = false) ∧
    ((urlsplitL ("https://github.com/org/repo.git").data).scheme = ("https").data ∧
      usernameFalsy (urlsplitL ("https://github.com/org/repo.git").data).netloc = true) ∧
    ((urlsplitL ("https://github.com/org/repo.git").data).path = [] ∨
      (urlsplitL ("https://github.com/org/repo.git").data).path.head? = some '/') ∧
    urlsplitL (injectUrl "tok" "https://github.com/org/repo.git").data =
      SplitRes.mk (urlsplitL ("https://github.com/org/repo.git").data).scheme
        (("tok").data ++ '@' :: (urlsplitL ("https://github.com/org/repo.git").data).netloc)
        (urlsplitL ("https://github.com/org/repo.git").data).path
        (urlsplitL ("https://github.com/org/repo.git").data).query
        (urlsplitL ("https://github.com/org/repo.git").data).fragment :=
  ⟨by decide, by decide, by decide,
    ((c2_inject_components "tok" "https://github.com/org/repo.git" (by decide)).1
      (by decide)).2 (by decide)⟩

/-- C3 (amended): injecting twice is the same as injecting once for every
URL and every token that is nonempty, does not start with `:`, and contains
none of `/?#` nor tab/CR/LF (all true of real GitHub tokens): the second
application parses a netloc `token@...` whose username is nonempty and
leaves the URL unchanged. -/
theorem c3_inject_idem (t u : String) (ht : tokenOk t.data) :
    injectUrl t (injectUrl t u) = injectUrl t u := by
  simp only [injectUrl]
  exact congrArg String.mk (injectL_idem ht)

/-- C3 counterexample: with the empty token the first injection produces
authority `@host`, whose username is the empty string — still falsy — so a
second injection prepends another `@` instead of leaving the URL unchanged,
refuting the claim for every token. -/
theorem c3_inject_idem_cex :
    injectUrl "" "https://host/p" = "https://@host/p" ∧
    injectUrl "" (injectUrl "" "https://host/p") = "https://@@host/p" ∧
    injectUrl "" (injectUrl "" "https://host/p") ≠ injectUrl "" "https://host/p" := by decide

/-- C3 witness: a well-formed token on a plain GitHub clone URL. -/
theorem c3_inject_idem_witness :
    tokenOk ("ghp4bc").data ∧
    injectUrl "ghp4bc" (injectUrl "ghp4bc" "https://github.com/org/repo.git") =
      injectUrl "ghp4bc" "https://github.com/org/repo.git" :=
  ⟨by unfold tokenOk; decide,
    c3_inject_idem "ghp4bc" "https://github.com/org/repo.git" (by unfold tokenOk; decide)⟩

/-- C6 (amended): the changed-file list is every line of the diff-summary
text after the first, with empty lines kept (in particular the trailing
empty line produced by a terminating newline is a member); for every
non-empty path its membership agrees with the set of non-empty remaining
lines, so the two descriptions differ only at the empty string. -/
theorem c6_commit_files (g p : String) (hp : p ≠ "") :
    p ∈ commitFiles g ↔ p ∈ (commitFiles g).filter (fun q => !(q == "")) := by
  rw [List.mem_filter]
  simp [hp]

/-- C6 counterexample: the empty string is a member of the changed-file
list computed by the code (the trailing newline of `git show` output yields
a trailing empty line), but it is not one of the non-empty remaining lines
the claim describes. -/
theorem c6_commit_files_cex :
    ("" ∈ commitFiles "abc123 commit message\na.py\n") ∧
    "" ∉ (commitFiles "abc123 commit message\na.py\n").filter (fun q => !(q == "")) := by
  decide

/-- C6 witness: an ordinary path behaves the same under both readings. -/
theorem c6_commit_files_witness :
    (("a.py" : String) ≠ "") ∧
    ("a.py" ∈ commitFiles "abc123 commit message\na.py\n" ↔
      "a.py" ∈ (commitFiles "abc123 commit message\na.py\n").filter (fun q => !(q == ""))) :=
  ⟨by decide, c6_commit_files "abc123 commit message\na.py\n" "a.py" (by decide)⟩

/-! ## Payload lookups in the exception monad -/

theorem getKey2_some {j : Json} {a b : String} {v : Json}
    (h : getPath j [a, b] = some v) : getKey2 j a b = Except.ok v := by
  cases h1 : j.get? a with
  | none => simp [getPath, h1] at h
  | some w =>
    cases h2 : w.get? b with
    | none => simp [getPath, h1, h2] at h
    | some x =>
      simp only [getPath, h1, h2, Option.some.injEq] at h
      simp only [getKey2, getKey, h1, h2, h]

theorem getKey2_none {j : Json} {a b : String}
    (h : getPath j [a, b] = none) :
    ∃ k, getKey2 j a b = Except.error (PyErr.keyError k) := by
  cases h1 : j.get? a with
  | none => exact ⟨a, by simp only [getKey2, getKey, h1]⟩
  | some w =>
    cases h2 : w.get? b with
    | none => exact ⟨b, by simp only [getKey2, getKey, h1, h2]⟩
    | some x =>
      exfalso
      simp [getPath, h1, h2] at h

theorem getKey3_some {j : Json} {a b c : String} {v : Json}
    (h : getPath j [a, b, c] = some v) : getKey3 j a b c = Except.ok v := by
  cases h1 : j.get? a with
  | none => simp [getPath, h1] at h
  | some w =>
    cases h2 : w.get? b with
    | none => simp [getPath, h1, h2] at h
    | some x =>
      cases h3 : x.get? c with
      | none => simp [getPath, h1, h2, h3] at h
      | some y =>
        simp only [getPath, h1, h2, h3, Option.some.injEq] at h
        simp only [getKey3, getKey2, getKey, h1, h2, h3, h]

theorem getKey3_none {j : Json} {a b c : String}
    (h : getPath j [a, b, c] = none) :
    ∃ k, getKey3 j a b c = Except.error (PyErr.keyError k) := by
  cases h1 : j.get? a with
  | none => exact ⟨a, by simp only [getKey3, getKey2, getKey, h1]⟩
  | some w =>
    cases h2 : w.get? b with
    | none => exact ⟨b, by simp only [getKey3, getKey2, getKey, h1, h2]⟩
    | some x =>
      cases h3 : x.get? c with
      | none => exact ⟨c, by simp only [getKey3, getKey2, getKey, h1, h2, h3]⟩
      | some y =>
        exfalso
        simp [getPath, h1, h2, h3] at h

/-! ## The review reporter -/

theorem issueRequest_ok {payload : Json} {sha url : Json}
    (hsha : getPath payload ["pull_request", "head", "sha"] = some sha)
    (hurl : getPath payload ["pull_request", "review_comments_url"] = some url)
    (path : String) (issue : Issue) :
    issueRequest payload path issue =
      Except.ok (PostRequest.mk url (mkReviewBody path sha issue.message issue.line)) := by
  simp only [issueRequest, getKey3_some hsha, getKey2_some hurl]

theorem runIssues_ok {payload : Json} {sha url : Json}
    (hsha : getPath payload ["pull_request", "head", "sha"] = some sha)
    (hurl : getPath payload ["pull_request", "review_comments_url"] = some url)
    (path : String) (issues : List Issue) :
    runIssues payload path issues =
      (issues.map (fun i => PostRequest.mk url (mkReviewBody path sha i.message i.line)),
       none) := by
  induction issues with
  | nil => rfl
  | cons i rest ih =>
    simp only [runIssues, issueRequest_ok hsha hurl path i, ih, List.map_cons]

theorem issueRequest_err_sha {payload : Json}
    (hsha : getPath payload ["pull_request", "head", "sha"] = none)
    (path : String) (issue : Issue) :
    ∃ k, issueRequest payload path issue = Except.error (PyErr.keyError k) := by
  obtain ⟨k, hk⟩ := getKey3_none hsha
  exact ⟨k, by simp only [issueRequest, hk]⟩

theorem issueRequest_err_url {payload : Json} {sha : Json}
    (hsha : getPath payload ["pull_request", "head", "sha"] = some sha)
    (hurl : getPath payload ["pull_request", "review_comments_url"] = none)
    (path : String) (issue : Issue) :
    ∃ k, issueRequest payload path issue = Except.error (PyErr.keyError k) := by
  obtain ⟨k, hk⟩ := getKey2_none hurl
  exact ⟨k, by simp only [issueRequest, getKey3_some hsha, hk]⟩

theorem crtr_first_err {payload : Json} {g path : String} {i : Issue}
    (issues : List Issue) (rest : List (String × List Issue))
    (hmem : path ∈ commitFiles g) {k : String}
    (hek : issueRequest payload path i = Except.error (PyErr.keyError k)) :
    code_report_to_review payload g ((path, i :: issues) :: rest) =
      ([], some (PyErr.keyError k)) := by
  rw [code_report_to_review]
  simp only [crtrGo, if_pos hmem, runIssues, hek]

/-- C1: for a payload carrying `pull_request.head.sha` and
`pull_request.review_comments_url`, `code_report_to_review` emits exactly
one POST to the review-comments endpoint per finding whose path is in the
changed-file list, in report order, with body
`path / commit_id=head sha / body=message / line=line / side="RIGHT"`, and
emits nothing and raises nothing for findings of paths outside the list. -/
theorem c1_report_filtered (payload : Json) (gitShow : String)
    (report : List (String × List Issue)) (sha url : Json)
    (hsha : getPath payload ["pull_request", "head", "sha"] = some sha)
    (hurl : getPath payload ["pull_request", "review_comments_url"] = some url) :
    code_report_to_review payload gitShow report =
      (report.flatMap (fun pr =>
        if pr.1 ∈ commitFiles gitShow then
          pr.2.map (fun i => PostRequest.mk url (mkReviewBody pr.1 sha i.message i.line))
        else []), none) := by
  rw [code_report_to_review]
  induction report with
  | nil => rfl
  | cons pr rest ih =>
    obtain ⟨path, issues⟩ := pr
    by_cases hmem : path ∈ commitFiles gitShow
    · simp only [crtrGo, if_pos hmem, runIssues_ok hsha hurl path issues, ih,
        List.flatMap_cons]
    · simp only [crtrGo, if_neg hmem, ih, List.flatMap_cons]
      simp [hmem]

/-- C1 witness: the spec's own example — changed file `a.py`, report over
`a.py` (line 3) and `b.py` (line 1) — produces exactly the one `a.py`
request. -/
theorem c1_report_filtered_witness :
    getPath payloadFull ["pull_request", "head", "sha"] = some (Json.str "abc123") ∧
    getPath payloadFull ["pull_request", "review_comments_url"] =
      some (Json.str "https://api.github.com/review_comments") ∧
    code_report_to_review payloadFull "abc123 commit message\na.py"
      [("a.py", [Issue.mk (Json.str "m") (Json.num 3)]),
       ("b.py", [Issue.mk (Json.str "n") (Json.num 1)])] =
      ([PostRequest.mk (Json.str "https://api.github.com/review_comments")
          (mkReviewBody "a.py" (Json.str "abc123") (Json.str "m") (Json.num 3))], none) :=
  ⟨rfl, rfl, by
    rw [c1_report_filtered payloadFull _ _ _ _ rfl rfl]
    rfl⟩

/-- C4 (amended): every report-result notification emits exactly one POST to
the summary-comments endpoint, unconditionally (no changed-file filter); the
body is the supplied report text when that text is non-empty, and the fixed
default message when the text is absent or empty. -/
theorem c4_summary_post (payload : Json) (url : Json) (result : Json)
    (report_text : Option String) (no_vote : Bool)
    (hurl : getPath payload ["pull_request", "comments_url"] = some url) :
    report_result payload result report_text no_vote =
      ([PostRequest.mk url (Json.obj [("body", Json.str
        (match report_text with
         | none => "Universum check finished"
         | some t => if t = "" then "Universum check finished" else t))])], none) := by
  simp only [report_result, getKey2_some hurl]

/-- C4 counterexample: an explicitly supplied empty report text is not used
as the body; the fixed default is posted instead, so "the body is the
supplied report text when one was supplied" fails at `report_text = ""`. -/
theorem c4_summary_cex :
    report_result payloadFull Json.null (some "") false =
      ([PostRequest.mk (Json.str "https://api.github.com/comments")
         (Json.obj [("body", Json.str "Universum check finished")])], none) ∧
    "Universum check finished" ≠ "" :=
  ⟨rfl, by decide⟩

/-- C4 witness: a non-empty supplied text is posted as is; an absent text
posts the default. -/
theorem c4_summary_witness :
    getPath payloadFull ["pull_request", "comments_url"] =
      some (Json.str "https://api.github.com/comments") ∧
    report_result payloadFull Json.null (some "X") false =
      ([PostRequest.mk (Json.str "https://api.github.com/comments")
        (Json.obj [("body", Json.str "X")])], none) ∧
    report_result payloadFull Json.null none true =
      ([PostRequest.mk (Json.str "https://api.github.com/comments")
        (Json.obj [("body", Json.str "Universum check finished")])], none) :=
  ⟨rfl,
   by rw [c4_summary_post payloadFull _ Json.null (some "X") false rfl]; rfl,
   by rw [c4_summary_post payloadFull _ Json.null none true rfl]⟩

/-- C5: a payload string that does not parse as JSON makes construction fail
with the handled configuration error whose message embeds the decoder's
detail — not an uncaught decode exception — and no HTTP request is
emitted. -/
theorem c5_bad_json (loads : String → Except String Json) (payload e : String)
    (h : loads payload = Except.error e) :
    ghInit loads payload = ([], Except.error (PyErr.configError
      ("Provided payload value could not been parsed as JSON and returned the following error:\n "
        ++ e))) := by
  simp only [ghInit, h]

/-- C5 witness: an invalid payload string with the CPython decode message. -/
theorem c5_bad_json_witness :
    loadsFail "\x7bnot json" = Except.error "Expecting value: line 1 column 2 (char 1)" ∧
    ghInit loadsFail "\x7bnot json" = ([], Except.error (PyErr.configError
      ("Provided payload value could not been parsed as JSON and returned the following error:\n "
        ++ "Expecting value: line 1 column 2 (char 1)"))) :=
  ⟨rfl, c5_bad_json loadsFail "\x7bnot json" _ rfl⟩

/-- C7: `get_review_link` returns the `pull_request.html_url` payload field
whenever it is present and fails with a lookup error whenever it is
absent. -/
theorem c7_review_link (payload : Json) :
    (∀ v, getPath payload ["pull_request", "html_url"] = some v →
      get_review_link payload = Except.ok v) ∧
    (getPath payload ["pull_request", "html_url"] = none →
      ∃ k, get_review_link payload = Except.error (PyErr.keyError k)) := by
  constructor
  · intro v hv
    exact getKey2_some hv
  · intro hn
    exact getKey2_none hn

/-- C7 witness: the full payload yields its pull-request page URL. -/
theorem c7_review_link_witness :
    getPath payloadFull ["pull_request", "html_url"] =
      some (Json.str "https://github.com/org/repo/pull/1") ∧
    get_review_link payloadFull = Except.ok (Json.str "https://github.com/org/repo/pull/1") :=
  ⟨rfl, (c7_review_link payloadFull).1 _ rfl⟩

/-- C8: `report_result` is independent of the no-vote flag — two runs
differing only in `no_vote` produce identical requests and outcome. -/
theorem c8_no_vote_ignored (payload : Json) (result : Json)
    (report_text : Option String) (v1 v2 : Bool) :
    report_result payload result report_text v1 =
      report_result payload result report_text v2 := rfl

/-- C9: an explicitly empty summary text triggers the default (falsiness,
not absence, drives the substitution), so `report_text=""` is
indistinguishable from passing no text, and the posted body is the fixed
default message. -/
theorem c9_empty_report_text (payload : Json) (result : Json) (no_vote : Bool) :
    report_result payload result (some "") no_vote =
      report_result payload result none no_vote ∧
    (∀ url, getPath payload ["pull_request", "comments_url"] = some url →
      report_result payload result (some "") no_vote =
        ([PostRequest.mk url (Json.obj [("body", Json.str "Universum check finished")])],
         none)) := by
  constructor
  · rfl
  · intro url hurl
    simp only [report_result, getKey2_some hurl]
    rfl

/-- C9 witness. -/
theorem c9_empty_report_text_witness :
    getPath payloadFull ["pull_request", "comments_url"] =
      some (Json.str "https://api.github.com/comments") ∧
    report_result payloadFull Json.null (some "") true =
      ([PostRequest.mk (Json.str "https://api.github.com/comments")
        (Json.obj [("body", Json.str "Universum check finished")])], none) :=
  ⟨rfl, (c9_empty_report_text payloadFull Json.null true).2 _ rfl⟩

/-- C10: shape validation is split between construction and use: for a
payload that parses, a missing `repository.html_url` or
`pull_request.head.ref` raises a lookup error already inside `__init__`
(only the JSON decode error is caught there), while construction succeeds
without `pull_request.head.sha`, `pull_request.html_url`,
`pull_request.review_comments_url` or `pull_request.comments_url`, whose
absence only raises at the operation that reads the field. -/
theorem c10_shape_validation (loads : String → Except String Json) (payload : String)
    (pj : Json) (hload : loads payload = Except.ok pj) :
    ((getPath pj ["repository", "html_url"] = none →
       ∃ k, (ghInit loads payload).2 = Except.error (PyErr.keyError k)) ∧
     (∀ r, getPath pj ["repository", "html_url"] = some r →
       getPath pj ["pull_request", "head", "ref"] = none →
       ∃ k, (ghInit loads payload).2 = Except.error (PyErr.keyError k)) ∧
     (∀ r rf, getPath pj ["repository", "html_url"] = some r →
       getPath pj ["pull_request", "head", "ref"] = some rf →
       (ghInit loads payload).2 = Except.ok (InitState.mk r rf pj))) ∧
    ((getPath pj ["pull_request", "html_url"] = none →
       ∃ k, get_review_link pj = Except.error (PyErr.keyError k)) ∧
     (∀ path i issues rest g, getPath pj ["pull_request", "head", "sha"] = none →
       path ∈ commitFiles g →
       ∃ k, code_report_to_review pj g ((path, i :: issues) :: rest) =
         ([], some (PyErr.keyError k))) ∧
     (∀ sha path i issues rest g,
       getPath pj ["pull_request", "head", "sha"] = some sha →
       getPath pj ["pull_request", "review_comments_url"] = none →
       path ∈ commitFiles g →
       ∃ k, code_report_to_review pj g ((path, i :: issues) :: rest) =
         ([], some (PyErr.keyError k))) ∧
     (∀ result report_text no_vote, getPath pj ["pull_request", "comments_url"] = none →
       ∃ k, report_result pj result report_text no_vote =
         ([], some (PyErr.keyError k)))) := by
  refine ⟨⟨?_, ?_, ?_⟩, ?_, ?_, ?_, ?_⟩
  · intro hrepo
    obtain ⟨k, hk⟩ := getKey2_none hrepo
    exact ⟨k, by simp only [ghInit, hload, hk]⟩
  · intro r hr href
    obtain ⟨k, hk⟩ := getKey3_none href
    exact ⟨k, by simp only [ghInit, hload, getKey2_some hr, hk]⟩
  · intro r rf hr hrf
    simp only [ghInit, hload, getKey2_some hr, getKey3_some hrf]
  · intro hn
    exact getKey2_none hn
  · intro path i issues rest g hsha hmem
    obtain ⟨k, hk⟩ := issueRequest_err_sha hsha path i
    exact ⟨k, crtr_first_err issues rest hmem hk⟩
  · intro sha path i issues rest g hsha hurl hmem
    obtain ⟨k, hk⟩ := issueRequest_err_url hsha hurl path i
    exact ⟨k, crtr_first_err issues rest hmem hk⟩
  · intro result report_text no_vote hurl
    obtain ⟨k, hk⟩ := getKey2_none hurl
    exact ⟨k, by simp only [report_result, hk]⟩

/-- C10 witness: a payload with only the eagerly-read fields constructs
fine, and reading the absent review link fails only at that call. -/
theorem c10_shape_validation_witness :
    loadsConst payloadEagerOnly "x" = Except.ok payloadEagerOnly ∧
    getPath payloadEagerOnly ["repository", "html_url"] =
      some (Json.str "https://github.com/org/repo") ∧
    getPath payloadEagerOnly ["pull_request", "head", "ref"] = some (Json.str "feature") ∧
    (ghInit (loadsConst payloadEagerOnly) "x").2 =
      Except.ok (InitState.mk (Json.str "https://github.com/org/repo") (Json.str "feature")
        payloadEagerOnly) ∧
    getPath payloadEagerOnly ["pull_request", "html_url"] = none ∧
    (∃ k, get_review_link payloadEagerOnly = Except.error (PyErr.keyError k)) :=
  ⟨rfl, rfl, rfl,
   ((c10_shape_validation (loadsConst payloadEagerOnly) "x" payloadEagerOnly rfl).1).2.2 _ _
     rfl rfl,
   rfl,
   ((c10_shape_validation (loadsConst payloadEagerOnly) "x" payloadEagerOnly rfl).2).1 rfl⟩
